import Mathlib

/-!
# ArduinO' ClocK: the constant tables of `Dsongs.h` and `fixedStrings.h`

The two headers hold read-only data only: eight melody strings in a
ringtone notation and five tables of display strings.  The strings are
embedded as Lean `String`s, character for character (the accented letters
of the source are UTF-8 in the header and are the same code points here);
a table `const char * const t[]` is embedded as the list of its entries and
`t[i]` as the partial lookup `t[i]?`, which is `none` outside the table.
-/

namespace ArduinoClock

/-! ## `fixedStrings.h` -/

/-- Table `sDOW` of `fixedStrings.h`. -/
def sDOW : List String :=
  ["", "Dimanche", "Lundi", "Mardi", "Mercredi", "Jeudi", "Vendredi", "Samedi"]

/-- Table `sMONTH` of `fixedStrings.h`. -/
def sMONTH : List String :=
  ["", "janvier", "février", "mars", "avril", "mai", "juin",
   "juillet", "août", "septembre", "octobre", "novembre", "décembre"]

/-- Table `sMESSAGES` of `fixedStrings.h`. -/
def sMESSAGES : List String :=
  ["°C", "°F", "Temp: ", "Date: "]

/-- Table `sSETTINGS` of `fixedStrings.h`. -/
def sSETTINGS : List String :=
  ["Set", "Chrono", "Date", "Show Date", "each ", "off", " min", "words", "d:m:y", "m:d:y", "Time", "Alarm1", "Alarm2", "Music1", "Music2", "Bright1", "Bright2"]

/-- Table `sSPLASH` of `fixedStrings.h`. -/
def sSPLASH : List String :=
  ["A SAMPLE... FOR FUN!", "ArduinO' ClocK"]

/-- The five string tables of `fixedStrings.h`, in source order. -/
def stringTables : List (List String) :=
  [sDOW, sMONTH, sMESSAGES, sSETTINGS, sSPLASH]

/-! ## `Dsongs.h` -/

/-- Melody `song01` of `Dsongs.h`. -/
def song01 : String := ": :e,8f,8g8a,8b,8c1,8d1,8e1"

/-- Melody `song02` of `Dsongs.h`. -/
def song02 : String := ":d=4 :c,d,e,f"

/-- Melody `song03` of `Dsongs.h`. -/
def song03 : String := ":o=6,d=2 :16a,16b,8a,4b"

/-- Melody `song04` of `Dsongs.h`. -/
def song04 : String := ":o=5,d=2 :32g,32a,32b,32c"

/-- Melody `song11` of `Dsongs.h` (the string literal itself; what follows
it on the source line is a comment). -/
def song11 : String := ":d=16 :8a,8p,a,8p,c1, e1,d#1,e1,f1,e1,b,d_1,c1"

/-- Melody `song12` of `Dsongs.h`. -/
def song12 : String := ":d=16 :8e,8p,c,8p,e,  1p,                       1p,              , 1p,      , 1p,                     "

/-- Melody `song13` of `Dsongs.h`. -/
def song13 : String := ":o=6,d=8 :c, 1p"

/-- Melody `song14` of `Dsongs.h`. -/
def song14 : String := ":o=6,d=8 :c, 1p"

/-- The melody table: every melody of `Dsongs.h`, in source order. -/
def melodies : List String :=
  [song01, song02, song03, song04, song11, song12, song13, song14]

/-! ## Vocabulary of the calendar tables -/

/-- French name of the calendar month numbered `m`, January being month 1. -/
def monthNameFr : Nat → Option String
  | 1 => some "janvier"
  | 2 => some "février"
  | 3 => some "mars"
  | 4 => some "avril"
  | 5 => some "mai"
  | 6 => some "juin"
  | 7 => some "juillet"
  | 8 => some "août"
  | 9 => some "septembre"
  | 10 => some "octobre"
  | 11 => some "novembre"
  | 12 => some "décembre"
  | _ => none

/-- Whether the text `s` begins with the text `p`. -/
def beginsWith (p s : String) : Bool :=
  p.toList.isPrefixOf s.toList

/-- Whether the text `s` ends with the text `p`. -/
def endsWith (p s : String) : Bool :=
  p.toList.reverse.isPrefixOf s.toList.reverse

/-- Indices of the entries of table `t` that begin with `p`. -/
def indicesBeginning (p : String) (t : List String) : List Nat :=
  (List.range t.length).filter fun i =>
    match t[i]? with
    | some s => beginsWith p s
    | none => false

/-- Lookup is injective on the table `t`: two different in-range indices
never hold the same text. -/
def InjectiveLookup (t : List String) : Prop :=
  ∀ i j : Nat, i < t.length → j < t.length → i ≠ j → t[i]? ≠ t[j]?

/-- Indices of the entries of table `t` equal to the text `s`. -/
def indicesOf (s : String) (t : List String) : List Nat :=
  (List.range t.length).filter fun i => t[i]? == some s

/-! ## The melody notation

The grammar of the notation, as the specification gives it:

    entry      := [header] ":" noteseq
    header     := field ("," field)*
    field      := "o=" digit | "d=" digit
    noteseq    := note ("," note)*
    note       := [duration] pitch ["#"] ["_" octave] [duration] ["."]
    pitch      := "a".."g" | "p"

A `duration` is a run of one or more decimal digits and an `octave` is one
decimal digit.  No production derives a `,` inside a note or a field, nor a
`:` inside a header or a note sequence, so an entry is read by cutting the
text at its first `:`, cutting both sides at every `,`, and reading each
piece as one field or one note, whole.
-/

/-- The character is a space. -/
def isSpace (c : Char) : Bool := c == ' '

/-- The character is a decimal digit, `0` to `9`. -/
def isDigit (c : Char) : Bool := '0' ≤ c && c ≤ '9'

/-- The pitch letters of the notation: `a` to `g`, and `p` for a rest. -/
def pitchChars : List Char := ['a', 'b', 'c', 'd', 'e', 'f', 'g', 'p']

/-- The character is a pitch letter. -/
def isPitch (c : Char) : Bool := pitchChars.contains c

/-- Value of a decimal digit character. -/
def digitVal (c : Char) : Nat := c.toNat - '0'.toNat

/-- Value of a run of decimal digits, most significant digit first. -/
def digitsValue (ds : List Char) : Nat :=
  ds.foldl (fun n c => 10 * n + digitVal c) 0

/-- The pieces of `s` between the occurrences of `sep`; never empty, and
with `k` occurrences of `sep` there are `k + 1` pieces. -/
def splitAt (sep : Char) : List Char → List (List Char)
  | [] => [[]]
  | c :: cs =>
    if c = sep then [] :: splitAt sep cs
    else
      match splitAt sep cs with
      | [] => [[c]]
      | t :: ts => (c :: t) :: ts

/-- The text `s` without its spaces. -/
def dropSpaces (s : List Char) : List Char :=
  s.filter fun c => !isSpace c

/-- All the values of a list of optional values, when none is missing. -/
def allSome {α : Type} : List (Option α) → Option (List α)
  | [] => some []
  | none :: _ => none
  | some a :: rest =>
    match allSome rest with
    | some as => some (a :: as)
    | none => none

/-- One header field: a default octave or a default duration. -/
inductive Field where
  | octave (n : Nat)
  | duration (n : Nat)
deriving DecidableEq, Repr

/-- One note of a melody: the optional duration written before the pitch
letter, the pitch letter, the sharp marker, the optional octave written
after `_`, the optional duration written after the pitch, and the dot. -/
structure Note where
  lead : Option Nat
  pitch : Char
  sharp : Bool
  octave : Option Nat
  trail : Option Nat
  dotted : Bool
deriving DecidableEq, Repr

/-- A parsed melody entry: the header fields in order, then the notes. -/
structure Entry where
  header : List Field
  notes : List Note
deriving DecidableEq, Repr

/-- An optional duration: the value of a run of digits, absent when the run
is empty. -/
def optDuration (ds : List Char) : Option Nat :=
  if ds.isEmpty then none else some (digitsValue ds)

/-- Reads `field := "o=" digit | "d=" digit`: the whole text is one field. -/
def parseField : List Char → Option Field
  | ['o', '=', v] => if isDigit v then some (Field.octave (digitVal v)) else none
  | ['d', '=', v] => if isDigit v then some (Field.duration (digitVal v)) else none
  | _ => none

/-- Reads a field whose value is one or more digits: `"o=" digit+` or
`"d=" digit+`. -/
def parseFieldMulti : List Char → Option Field
  | 'o' :: '=' :: v =>
    if !v.isEmpty && v.all isDigit then some (Field.octave (digitsValue v)) else none
  | 'd' :: '=' :: v =>
    if !v.isEmpty && v.all isDigit then some (Field.duration (digitsValue v)) else none
  | _ => none

/-- Reads the end of a note, `[duration] ["."]`, after the pitch, the sharp
marker and the octave have been read. -/
def parseNoteTail (lead : Option Nat) (pitch : Char) (sharp : Bool)
    (octave : Option Nat) (rest : List Char) : Option Note :=
  let trail := optDuration (rest.takeWhile isDigit)
  match rest.dropWhile isDigit with
  | [] => some ⟨lead, pitch, sharp, octave, trail, false⟩
  | ['.'] => some ⟨lead, pitch, sharp, octave, trail, true⟩
  | _ => none

/-- Reads `["_" octave] [duration] ["."]` after the pitch and the sharp
marker. -/
def parseNoteOctave (lead : Option Nat) (pitch : Char) (sharp : Bool) :
    List Char → Option Note
  | '_' :: o :: rest =>
    if isDigit o then parseNoteTail lead pitch sharp (some (digitVal o)) rest else none
  | ['_'] => none
  | rest => parseNoteTail lead pitch sharp none rest

/-- Reads `["#"] ["_" octave] [duration] ["."]` after the pitch. -/
def parseNoteSharp (lead : Option Nat) (pitch : Char) : List Char → Option Note
  | '#' :: rest => parseNoteOctave lead pitch true rest
  | rest => parseNoteOctave lead pitch false rest

/-- Reads `note := [duration] pitch ["#"] ["_" octave] [duration] ["."]`:
the whole text is one note. -/
def parseNote (tok : List Char) : Option Note :=
  match tok.dropWhile isDigit with
  | [] => none
  | p :: rest =>
    if isPitch p then parseNoteSharp (optDuration (tok.takeWhile isDigit)) p rest
    else none

/-- Reads `header := field ("," field)*` with the given reading of a
field. -/
def parseHeaderWith (field : List Char → Option Field) (s : List Char) :
    Option (List Field) :=
  allSome ((splitAt ',' s).map field)

/-- Reads `noteseq := note ("," note)*`. -/
def parseNoteSeq (s : List Char) : Option (List Note) :=
  allSome ((splitAt ',' s).map parseNote)

/-- Reads a note sequence in which the empty pieces between commas are
passed over. -/
def parseNoteSeqSkipEmpty (s : List Char) : Option (List Note) :=
  allSome (((splitAt ',' s).filter fun t => !t.isEmpty).map parseNote)

/-- Cuts a text at its first `:`, into what is before and what is after. -/
def cutAtColon : List Char → Option (List Char × List Char)
  | [] => none
  | c :: cs =>
    if c = ':' then some ([], cs)
    else
      match cutAtColon cs with
      | some (h, r) => some (c :: h, r)
      | none => none

/-- Reads `entry := [header] ":" noteseq` with the given readings of a
field and of a note sequence; `none` when the text is not an entry. -/
def parseEntryWith (field : List Char → Option Field)
    (noteseq : List Char → Option (List Note)) (s : List Char) : Option Entry :=
  match cutAtColon s with
  | none => none
  | some (h, r) =>
    match (if h.isEmpty then some [] else parseHeaderWith field h), noteseq r with
    | some fs, some ns => some ⟨fs, ns⟩
    | _, _ => none

/-- Reads an entry under the grammar as written: the whole text must be
`[header] ":" noteseq`, with one-digit field values. -/
def parseEntry (s : List Char) : Option Entry :=
  parseEntryWith parseField parseNoteSeq s

/-- The text is accepted by the grammar as written, nothing left over. -/
def accepts (s : List Char) : Bool := (parseEntry s).isSome

/-- The text of a melody after its leading `:`; `none` when the text does
not begin with `:`. -/
def afterLeadColon : List Char → Option (List Char)
  | ':' :: rest => some rest
  | _ => none

/-- Reads a melody laid out as the table lays it out: a leading `:`, then,
spaces not counting, an entry of the grammar with the given readings of a
field and of a note sequence. -/
def readMelodyWith (field : List Char → Option Field)
    (noteseq : List Char → Option (List Note)) (s : List Char) : Option Entry :=
  match afterLeadColon s with
  | some rest => parseEntryWith field noteseq (dropSpaces rest)
  | none => none

/-- Reads a melody as `:` followed by an entry of the grammar as written
(one-digit field values), spaces not counting. -/
def parseMelodyDigit (s : List Char) : Option Entry :=
  readMelodyWith parseField parseNoteSeq s

/-- Reads a melody as `:` followed by an entry of the grammar in which a
field value is one or more digits, spaces not counting. -/
def parseMelody (s : List Char) : Option Entry :=
  readMelodyWith parseFieldMulti parseNoteSeq s

/-- Reads a melody as `parseMelody` does, also passing over the empty
pieces of the note sequence. -/
def parseMelodySkipEmpty (s : List Char) : Option Entry :=
  readMelodyWith parseFieldMulti parseNoteSeqSkipEmpty s

/-! ## Note tokens, duration values and the two-colon layout -/

/-- The text that follows the last `:` of `s`. -/
def afterLastColon (s : List Char) : List Char :=
  (splitAt ':' s).getLastD []

/-- The note tokens of a melody: the comma-separated pieces of the text
that follows its last colon. -/
def noteTokens (s : List Char) : List (List Char) :=
  splitAt ',' (afterLastColon s)

/-- The pitch character of a note token: its first character after any
leading spaces and leading duration digits, when there is one. -/
def pitchChar (tok : List Char) : Option Char :=
  ((tok.dropWhile isSpace).dropWhile isDigit).head?

/-- The token holds nothing but spaces (possibly nothing at all). -/
def isBlank (tok : List Char) : Bool := tok.all isSpace

/-- The last character of `before` is a decimal digit. -/
def endsInDigit (before : List Char) : Bool :=
  match before.getLast? with
  | some c => isDigit c
  | none => false

/-- The text `before` ends in `o=` or in `_`: a number that follows it is
an octave value. -/
def octaveContext (before : List Char) : Bool :=
  ['=', 'o'].isPrefixOf before.reverse || ['_'].isPrefixOf before.reverse

/-- A maximal run of decimal digits of `s` starts at position `i`. -/
def runStartsAt (s : List Char) (i : Nat) : Bool :=
  match s[i]? with
  | some c => isDigit c && !endsInDigit (s.take i)
  | none => false

/-- The duration values written in `s`: the value of every maximal run of
decimal digits that is not an octave value, in order of appearance. -/
def durationValues (s : List Char) : List Nat :=
  ((List.range s.length).filter fun i =>
      runStartsAt s i && !octaveContext (s.take i)).map fun i =>
    digitsValue ((s.drop i).takeWhile isDigit)

/-- The octave values written in `s`: the value of every maximal run of
decimal digits that follows `o=` or `_`. -/
def octaveValues (s : List Char) : List Nat :=
  ((List.range s.length).filter fun i =>
      runStartsAt s i && octaveContext (s.take i)).map fun i =>
    digitsValue ((s.drop i).takeWhile isDigit)

/-- The header text is a comma-separated list of fields `o=` or `d=`
followed by one or more digits, with at most one field of each kind and
`o=` first when both are there. -/
def headerFieldsOK (h : List Char) : Bool :=
  match parseHeaderWith parseFieldMulti h with
  | some [Field.octave _] => true
  | some [Field.duration _] => true
  | some [Field.octave _, Field.duration _] => true
  | _ => false

/-! ## The grammar as sets of texts

The same grammar, stated without reference to any reader: which texts each
production derives.  The readers above are proved to accept exactly these
texts. -/

/-- The grammar's `duration`: one or more decimal digits. -/
def IsDuration (s : List Char) : Prop :=
  s ≠ [] ∧ ∀ c ∈ s, isDigit c = true

/-- The grammar's `note`, as a set of texts:
`[duration] pitch ["#"] ["_" octave] [duration] ["."]`. -/
def IsNote (s : List Char) : Prop :=
  ∃ (d₁ : List Char) (p : Char) (sh oc d₂ dot : List Char),
    s = d₁ ++ p :: (sh ++ (oc ++ (d₂ ++ dot))) ∧
    (d₁ = [] ∨ IsDuration d₁) ∧
    isPitch p = true ∧
    (sh = [] ∨ sh = ['#']) ∧
    (oc = [] ∨ ∃ o, isDigit o = true ∧ oc = ['_', o]) ∧
    (d₂ = [] ∨ IsDuration d₂) ∧
    (dot = [] ∨ dot = ['.'])

/-- A note or nothing at all: a piece of a note sequence whose empty pieces
are passed over. -/
def IsNoteOrEmpty (s : List Char) : Prop :=
  s = [] ∨ IsNote s

/-- The grammar's `field`, as a set of texts: `o=` or `d=` and one digit. -/
def IsField (s : List Char) : Prop :=
  ∃ v : Char, isDigit v = true ∧ (s = ['o', '=', v] ∨ s = ['d', '=', v])

/-- A field whose value is one or more digits, as a set of texts. -/
def IsFieldMulti (s : List Char) : Prop :=
  ∃ v : List Char, IsDuration v ∧ (s = 'o' :: '=' :: v ∨ s = 'd' :: '=' :: v)

/-- The grammar's `x ("," x)*`, as a set of texts. -/
inductive SepBy (P : List Char → Prop) : List Char → Prop where
  | one {s : List Char} : P s → SepBy P s
  | more {s r : List Char} : P s → SepBy P r → SepBy P (s ++ ',' :: r)

/-- The grammar's `entry := [header] ":" noteseq`, as a set of texts, for
given sets of fields and of notes. -/
def IsEntryOf (field note : List Char → Prop) (s : List Char) : Prop :=
  ∃ h r : List Char, s = h ++ ':' :: r ∧ (h = [] ∨ SepBy field h) ∧ SepBy note r

/-- The entries of the grammar as written. -/
def IsEntry (s : List Char) : Prop := IsEntryOf IsField IsNote s

/-- The texts laid out as the melody table lays them out: a leading `:`,
then, spaces not counting, an entry of the grammar with fields of one or
more digits and the given set of notes. -/
def IsMelodyOf (note : List Char → Prop) (s : List Char) : Prop :=
  ∃ r : List Char, s = ':' :: r ∧ IsEntryOf IsFieldMulti note (dropSpaces r)

/-- The reading of a note-sequence piece when empty pieces are passed
over: an empty piece reads as nothing to play, any other as a note. -/
def parseNoteOrEmpty (t : List Char) : Option (Option Note) :=
  if t.isEmpty then some none else (parseNote t).map some

/-! # Theorems -/

/-! ## The readers accept exactly the grammar -/

theorem optDuration_digits (d : List Char) :
    (d = [] ∨ IsDuration d) ↔ ∀ c ∈ d, isDigit c = true := by
  constructor
  · rintro (rfl | ⟨_, h⟩)
    · simp
    · exact h
  · intro h
    by_cases hd : d = []
    · exact Or.inl hd
    · exact Or.inr ⟨hd, h⟩

theorem takeWhile_digits (s : List Char) : ∀ c ∈ s.takeWhile isDigit, isDigit c = true := by
  intro c hc
  exact List.mem_takeWhile_imp hc

theorem dropWhile_head_not_digit (s : List Char) (c : Char) (r : List Char)
    (h : s.dropWhile isDigit = c :: r) : isDigit c = false := by
  have := List.head_dropWhile_not isDigit s
  simp [h] at this
  exact this

theorem span_digits (d x : List Char) (hd : ∀ c ∈ d, isDigit c = true)
    (hx : ∀ c r, x = c :: r → isDigit c = false) :
    (d ++ x).takeWhile isDigit = d ∧ (d ++ x).dropWhile isDigit = x := by
  induction d with
  | nil =>
    cases x with
    | nil => simp
    | cons c r => simp [hx c r rfl]
  | cons a d ih =>
    have ha : isDigit a = true := hd a (by simp)
    have := ih (fun c hc => hd c (by simp [hc]))
    simp [List.takeWhile_cons, List.dropWhile_cons, ha, this]

theorem isPitch_not_digit (p : Char) (h : isPitch p = true) : isDigit p = false := by
  simp [isPitch, pitchChars] at h
  rcases h with rfl | rfl | rfl | rfl | rfl | rfl | rfl | rfl <;> decide


/-- A text made of digits and an optional final dot starts, when it is not
empty, with a digit or with the dot. -/
theorem tail_head (d₂ dot : List Char) (hd : ∀ c ∈ d₂, isDigit c = true)
    (hdot : dot = [] ∨ dot = ['.']) (c : Char) (r : List Char)
    (h : d₂ ++ dot = c :: r) : isDigit c = true ∨ c = '.' := by
  cases d₂ with
  | nil =>
    rcases hdot with rfl | rfl
    · simp at h
    · simp at h
      exact Or.inr h.1.symm
  | cons a d =>
    simp at h
    exact Or.inl (h.1 ▸ hd a (by simp))

theorem parseNoteTail_isSome (l : Option Nat) (p : Char) (sh : Bool) (o : Option Nat)
    (rest : List Char) :
    (parseNoteTail l p sh o rest).isSome = true ↔
      ∃ d₂ dot : List Char, rest = d₂ ++ dot ∧ (∀ c ∈ d₂, isDigit c = true) ∧
        (dot = [] ∨ dot = ['.']) := by
  constructor
  · intro h
    unfold parseNoteTail at h
    split at h
    · next heq =>
      exact ⟨rest.takeWhile isDigit, [], by
        rw [← heq, List.takeWhile_append_dropWhile], takeWhile_digits rest, Or.inl rfl⟩
    · next heq =>
      exact ⟨rest.takeWhile isDigit, ['.'], by
        rw [← heq, List.takeWhile_append_dropWhile], takeWhile_digits rest, Or.inr rfl⟩
    · simp at h
  · rintro ⟨d₂, dot, rfl, hd, hdot⟩
    have hx : ∀ c r, dot = c :: r → isDigit c = false := by
      intro c r hc
      rcases hdot with rfl | rfl
      · simp at hc
      · simp at hc
        rw [← hc.1]
        decide
    have hs := span_digits d₂ dot hd hx
    unfold parseNoteTail
    rw [hs.2]
    rcases hdot with rfl | rfl <;> simp

theorem parseNoteOctave_isSome (l : Option Nat) (p : Char) (sh : Bool) (rest : List Char) :
    (parseNoteOctave l p sh rest).isSome = true ↔
      ∃ oc d₂ dot : List Char, rest = oc ++ (d₂ ++ dot) ∧
        (oc = [] ∨ ∃ o, isDigit o = true ∧ oc = ['_', o]) ∧
        (∀ c ∈ d₂, isDigit c = true) ∧ (dot = [] ∨ dot = ['.']) := by
  constructor
  · intro h
    unfold parseNoteOctave at h
    split at h
    · next o r =>
      split at h
      · next ho =>
        obtain ⟨d₂, dot, rfl, hd, hdot⟩ := (parseNoteTail_isSome _ _ _ _ _).mp h
        exact ⟨['_', o], d₂, dot, rfl, Or.inr ⟨o, ho, rfl⟩, hd, hdot⟩
      · simp at h
    · simp at h
    · obtain ⟨d₂, dot, rfl, hd, hdot⟩ := (parseNoteTail_isSome _ _ _ _ _).mp h
      exact ⟨[], d₂, dot, rfl, Or.inl rfl, hd, hdot⟩
  · rintro ⟨oc, d₂, dot, rfl, hoc, hd, hdot⟩
    rcases hoc with rfl | ⟨o, ho, rfl⟩
    · have hne : ∀ r, [] ++ (d₂ ++ dot) ≠ '_' :: r := by
        intro r hr
        rcases tail_head d₂ dot hd hdot '_' r hr with h | h
        · exact absurd h (by decide)
        · exact absurd h (by decide)
      unfold parseNoteOctave
      split
      · next o r heq => exact absurd heq (hne _)
      · next heq => exact absurd heq (hne _)
      · exact (parseNoteTail_isSome _ _ _ _ _).mpr ⟨d₂, dot, rfl, hd, hdot⟩
    · show (parseNoteOctave l p sh ('_' :: o :: (d₂ ++ dot))).isSome = true
      unfold parseNoteOctave
      simp only [ho, if_true]
      exact (parseNoteTail_isSome _ _ _ _ _).mpr ⟨d₂, dot, rfl, hd, hdot⟩

theorem parseNoteSharp_isSome (l : Option Nat) (p : Char) (rest : List Char) :
    (parseNoteSharp l p rest).isSome = true ↔
      ∃ sh oc d₂ dot : List Char, rest = sh ++ (oc ++ (d₂ ++ dot)) ∧
        (sh = [] ∨ sh = ['#']) ∧
        (oc = [] ∨ ∃ o, isDigit o = true ∧ oc = ['_', o]) ∧
        (∀ c ∈ d₂, isDigit c = true) ∧ (dot = [] ∨ dot = ['.']) := by
  constructor
  · intro h
    unfold parseNoteSharp at h
    split at h
    · obtain ⟨oc, d₂, dot, rfl, hoc, hd, hdot⟩ := (parseNoteOctave_isSome _ _ _ _).mp h
      exact ⟨['#'], oc, d₂, dot, rfl, Or.inr rfl, hoc, hd, hdot⟩
    · obtain ⟨oc, d₂, dot, rfl, hoc, hd, hdot⟩ := (parseNoteOctave_isSome _ _ _ _).mp h
      exact ⟨[], oc, d₂, dot, rfl, Or.inl rfl, hoc, hd, hdot⟩
  · rintro ⟨sh, oc, d₂, dot, rfl, hsh, hoc, hd, hdot⟩
    rcases hsh with rfl | rfl
    · have hne : ∀ r, [] ++ (oc ++ (d₂ ++ dot)) ≠ '#' :: r := by
        intro r hr
        rcases hoc with rfl | ⟨o, _, rfl⟩
        · rcases tail_head d₂ dot hd hdot '#' r hr with h | h
          · exact absurd h (by decide)
          · exact absurd h (by decide)
        · simp at hr
      unfold parseNoteSharp
      split
      · next r heq => exact absurd heq (hne _)
      · exact (parseNoteOctave_isSome _ _ _ _).mpr ⟨oc, d₂, dot, rfl, hoc, hd, hdot⟩
    · show (parseNoteSharp l p ('#' :: (oc ++ (d₂ ++ dot)))).isSome = true
      unfold parseNoteSharp
      exact (parseNoteOctave_isSome _ _ _ _).mpr ⟨oc, d₂, dot, rfl, hoc, hd, hdot⟩

/-- The reader of a note accepts exactly the texts of the grammar's `note`. -/
theorem parseNote_isSome (tok : List Char) :
    (parseNote tok).isSome = true ↔ IsNote tok := by
  constructor
  · intro h
    unfold parseNote at h
    split at h
    · simp at h
    · next p rest heq =>
      split at h
      · next hp =>
        obtain ⟨sh, oc, d₂, dot, rfl, hsh, hoc, hd, hdot⟩ :=
          (parseNoteSharp_isSome _ _ _).mp h
        refine ⟨tok.takeWhile isDigit, p, sh, oc, d₂, dot, ?_,
          (optDuration_digits _).mpr (takeWhile_digits tok), hp, hsh, hoc,
          (optDuration_digits _).mpr hd, hdot⟩
        rw [← heq, List.takeWhile_append_dropWhile]
      · simp at h
  · rintro ⟨d₁, p, sh, oc, d₂, dot, rfl, hd₁, hp, hsh, hoc, hd₂, hdot⟩
    have hs := span_digits d₁ (p :: (sh ++ (oc ++ (d₂ ++ dot))))
      ((optDuration_digits _).mp hd₁)
      (by
        intro c r hc
        simp at hc
        rw [← hc.1]
        exact isPitch_not_digit p hp)
    unfold parseNote
    rw [hs.2]
    simp only [hp, if_true]
    exact (parseNoteSharp_isSome _ _ _).mpr
      ⟨sh, oc, d₂, dot, rfl, hsh, hoc, (optDuration_digits _).mp hd₂, hdot⟩


theorem parseField_isSome (t : List Char) :
    (parseField t).isSome = true ↔ IsField t := by
  constructor
  · intro h
    unfold parseField at h
    split at h
    · next v =>
      split at h
      · next hv => exact ⟨v, hv, Or.inl rfl⟩
      · simp at h
    · next v =>
      split at h
      · next hv => exact ⟨v, hv, Or.inr rfl⟩
      · simp at h
    · simp at h
  · rintro ⟨v, hv, rfl | rfl⟩ <;> simp [parseField, hv]

theorem parseFieldMulti_isSome (t : List Char) :
    (parseFieldMulti t).isSome = true ↔ IsFieldMulti t := by
  constructor
  · intro h
    unfold parseFieldMulti at h
    split at h
    · next v =>
      split at h
      · next hv =>
        simp at hv
        exact ⟨v, ⟨hv.1, hv.2⟩, Or.inl rfl⟩
      · simp at h
    · next v =>
      split at h
      · next hv =>
        simp at hv
        exact ⟨v, ⟨hv.1, hv.2⟩, Or.inr rfl⟩
      · simp at h
    · simp at h
  · rintro ⟨v, ⟨hne, hv⟩, rfl | rfl⟩
    · have : (!v.isEmpty && v.all isDigit) = true := by simpa [hne] using hv
      simp [parseFieldMulti, this]
    · have : (!v.isEmpty && v.all isDigit) = true := by simpa [hne] using hv
      simp [parseFieldMulti, this]

theorem splitAt_ne_nil (sep : Char) (s : List Char) : splitAt sep s ≠ [] := by
  cases s with
  | nil => simp [splitAt]
  | cons c cs =>
    unfold splitAt
    split
    · simp
    · split <;> simp

/-- How `splitAt` cuts: the first piece holds no separator, and either it is
the whole text or the separator follows it and the other pieces are those of
what comes after. -/
theorem splitAt_cons_iff (sep : Char) : ∀ (s t : List Char) (ts : List (List Char)),
    splitAt sep s = t :: ts →
      sep ∉ t ∧ ((ts = [] ∧ s = t) ∨ ∃ r, s = t ++ sep :: r ∧ splitAt sep r = ts) := by
  intro s
  induction s with
  | nil =>
    intro t ts h
    simp [splitAt] at h
    obtain ⟨rfl, rfl⟩ := h
    simp
  | cons c cs ih =>
    intro t ts h
    unfold splitAt at h
    split at h
    · next hc =>
      simp at h
      obtain ⟨rfl, rfl⟩ := h
      exact ⟨by simp, Or.inr ⟨cs, by simp [hc], rfl⟩⟩
    · next hc =>
      split at h
      · next heq => exact absurd heq (splitAt_ne_nil sep cs)
      · next t' ts' heq =>
        simp at h
        obtain ⟨rfl, rfl⟩ := h
        obtain ⟨hnot, hor⟩ := ih t' ts' heq
        refine ⟨?_, ?_⟩
        · simp only [List.mem_cons, not_or]
          exact ⟨fun h => hc h.symm, hnot⟩
        · rcases hor with ⟨rfl, rfl⟩ | ⟨r, rfl, hr⟩
          · exact Or.inl ⟨rfl, rfl⟩
          · exact Or.inr ⟨r, by simp, hr⟩

theorem splitAt_of_not_mem (sep : Char) : ∀ s : List Char, sep ∉ s → splitAt sep s = [s] := by
  intro s
  induction s with
  | nil => intro _; simp [splitAt]
  | cons c cs ih =>
    intro h
    simp only [List.mem_cons, not_or] at h
    unfold splitAt
    rw [if_neg (fun e => h.1 e.symm), ih h.2]

theorem splitAt_append (sep : Char) (r : List Char) : ∀ s : List Char, sep ∉ s →
    splitAt sep (s ++ sep :: r) = s :: splitAt sep r := by
  intro s
  induction s with
  | nil => intro _; simp [splitAt]
  | cons c cs ih =>
    intro h
    simp only [List.mem_cons, not_or] at h
    show splitAt sep (c :: (cs ++ sep :: r)) = _
    rw [splitAt, if_neg (fun e => h.1 e.symm), ih h.2]

theorem allSome_cons_isSome {α : Type} (a : Option α) (l : List (Option α)) :
    (allSome (a :: l)).isSome = true ↔ a.isSome = true ∧ (allSome l).isSome = true := by
  cases a with
  | none => simp [allSome]
  | some x =>
    cases h : allSome l <;> simp [allSome, h]

/-- Cutting at the commas and reading every piece accepts exactly the
texts of `x ("," x)*`, when no text of `x` holds a comma. -/
theorem sepBy_iff {α : Type} (f : List Char → Option α) (hf : ∀ t, (f t).isSome = true → ',' ∉ t)
    (s : List Char) :
    (allSome ((splitAt ',' s).map f)).isSome = true ↔
      SepBy (fun t => (f t).isSome = true) s := by
  constructor
  · generalize hl : splitAt ',' s = l
    intro h
    induction l generalizing s with
    | nil => exact absurd hl (splitAt_ne_nil _ _)
    | cons t ts ih =>
      rw [List.map_cons, allSome_cons_isSome] at h
      obtain ⟨_, hor⟩ := splitAt_cons_iff ',' s t ts hl
      rcases hor with ⟨_, rfl⟩ | ⟨r, rfl, hr⟩
      · exact SepBy.one h.1
      · exact SepBy.more h.1 (ih r hr h.2)
  · intro h
    induction h with
    | one hs =>
      rw [splitAt_of_not_mem _ _ (hf _ hs)]
      simp [allSome_cons_isSome, hs, allSome]
    | more hs _ ih =>
      rw [splitAt_append _ _ _ (hf _ hs), List.map_cons, allSome_cons_isSome]
      exact ⟨hs, ih⟩

theorem sepBy_mono {P Q : List Char → Prop} (hPQ : ∀ t, P t → Q t) {s : List Char}
    (h : SepBy P s) : SepBy Q s := by
  induction h with
  | one hs => exact SepBy.one (hPQ _ hs)
  | more hs _ ih => exact SepBy.more (hPQ _ hs) ih

theorem cutAtColon_iff : ∀ (s h r : List Char),
    cutAtColon s = some (h, r) ↔ s = h ++ ':' :: r ∧ ':' ∉ h := by
  intro s
  induction s with
  | nil => intro h r; simp [cutAtColon]
  | cons c cs ih =>
    intro h r
    unfold cutAtColon
    split
    · next hc =>
      subst hc
      constructor
      · intro e
        simp at e
        obtain ⟨rfl, rfl⟩ := e
        simp
      · rintro ⟨e, hn⟩
        cases h with
        | nil => simp at e; simp [e]
        | cons a h' =>
          simp at e hn
          exact absurd e.1 hn.1
    · next hc =>
      split
      · next h' r' heq =>
        have := (ih h' r').mp heq
        constructor
        · intro e
          simp at e
          obtain ⟨rfl, rfl⟩ := e
          exact ⟨by simp [this.1], by simp [this.2, Ne.symm hc]⟩
        · rintro ⟨e, hn⟩
          cases h with
          | nil => simp at e; exact absurd e.1 hc
          | cons a h'' =>
            simp at e hn
            obtain ⟨rfl, e2⟩ := e
            have h2 := (ih h'' r).mpr ⟨e2, hn.2⟩
            rw [heq] at h2
            simp at h2
            simp [h2.1, h2.2]
      · next heq =>
        constructor
        · intro e; simp at e
        · rintro ⟨e, hn⟩
          cases h with
          | nil => simp at e; exact absurd e.1 hc
          | cons a h'' =>
            simp at e hn
            have h2 := (ih h'' r).mpr ⟨e.2, hn.2⟩
            rw [heq] at h2
            simp at h2


theorem sepBy_not_mem {P : List Char → Prop} (c : Char) (hc : c ≠ ',')
    (hP : ∀ t, P t → c ∉ t) {s : List Char} (h : SepBy P s) : c ∉ s := by
  induction h with
  | one hs => exact hP _ hs
  | more hs _ ih =>
    simp only [List.mem_append, List.mem_cons, not_or]
    exact ⟨hP _ hs, hc, ih⟩

/-- A note holds only digits, a pitch letter, `#`, `_` and `.`. -/
theorem isNote_chars (t : List Char) (h : IsNote t) (c : Char) (hc : c ∈ t) :
    isDigit c = true ∨ isPitch c = true ∨ c = '#' ∨ c = '_' ∨ c = '.' := by
  obtain ⟨d₁, p, sh, oc, d₂, dot, rfl, hd₁, hp, hsh, hoc, hd₂, hdot⟩ := h
  simp only [List.mem_append, List.mem_cons] at hc
  rcases hc with hc | rfl | hc | hc | hc | hc
  · exact Or.inl ((optDuration_digits _).mp hd₁ c hc)
  · exact Or.inr (Or.inl hp)
  · rcases hsh with rfl | rfl
    · simp at hc
    · simp at hc
      exact Or.inr (Or.inr (Or.inl hc))
  · rcases hoc with rfl | ⟨o, ho, rfl⟩
    · simp at hc
    · simp at hc
      rcases hc with rfl | rfl
      · exact Or.inr (Or.inr (Or.inr (Or.inl rfl)))
      · exact Or.inl ho
  · exact Or.inl ((optDuration_digits _).mp hd₂ c hc)
  · rcases hdot with rfl | rfl
    · simp at hc
    · simp at hc
      exact Or.inr (Or.inr (Or.inr (Or.inr hc)))

theorem isNote_no_comma (t : List Char) (h : IsNote t) : ',' ∉ t := by
  intro hc
  rcases isNote_chars t h ',' hc with h | h | h | h | h <;> exact absurd h (by decide)

theorem isFieldMulti_chars (t : List Char) (h : IsFieldMulti t) (c : Char) (hc : c ∈ t) :
    isDigit c = true ∨ c = 'o' ∨ c = 'd' ∨ c = '=' := by
  obtain ⟨v, ⟨_, hv⟩, rfl | rfl⟩ := h
  · simp only [List.mem_cons] at hc
    rcases hc with rfl | rfl | hc
    · exact Or.inr (Or.inl rfl)
    · exact Or.inr (Or.inr (Or.inr rfl))
    · exact Or.inl (hv c hc)
  · simp only [List.mem_cons] at hc
    rcases hc with rfl | rfl | hc
    · exact Or.inr (Or.inr (Or.inl rfl))
    · exact Or.inr (Or.inr (Or.inr rfl))
    · exact Or.inl (hv c hc)

theorem isField_isFieldMulti (t : List Char) (h : IsField t) : IsFieldMulti t := by
  obtain ⟨v, hv, h | h⟩ := h
  · exact ⟨[v], ⟨by simp, by simpa using hv⟩, Or.inl h⟩
  · exact ⟨[v], ⟨by simp, by simpa using hv⟩, Or.inr h⟩

theorem isFieldMulti_no_sep (t : List Char) (h : IsFieldMulti t) : ',' ∉ t ∧ ':' ∉ t := by
  constructor <;> intro hc
  · rcases isFieldMulti_chars t h ',' hc with h | h | h | h <;> exact absurd h (by decide)
  · rcases isFieldMulti_chars t h ':' hc with h | h | h | h <;> exact absurd h (by decide)

theorem allSome_isSome_iff {α : Type} (l : List (Option α)) :
    (allSome l).isSome = true ↔ ∀ a ∈ l, a.isSome = true := by
  induction l with
  | nil => simp [allSome]
  | cons a l ih => rw [allSome_cons_isSome, ih]; simp

theorem allSome_map_isSome_iff {α β : Type} (f : α → Option β) (l : List α) :
    (allSome (l.map f)).isSome = true ↔ ∀ t ∈ l, (f t).isSome = true := by
  rw [allSome_isSome_iff]
  simp

theorem parseNoteSeq_isSome (r : List Char) :
    (parseNoteSeq r).isSome = true ↔ SepBy IsNote r := by
  unfold parseNoteSeq
  rw [sepBy_iff parseNote (fun t ht => isNote_no_comma t ((parseNote_isSome t).mp ht))]
  exact ⟨sepBy_mono fun t => (parseNote_isSome t).mp,
    sepBy_mono fun t => (parseNote_isSome t).mpr⟩

theorem parseNoteOrEmpty_isSome (t : List Char) :
    (parseNoteOrEmpty t).isSome = true ↔ IsNoteOrEmpty t := by
  unfold parseNoteOrEmpty IsNoteOrEmpty
  by_cases he : t = []
  · simp [he]
  · have : t.isEmpty = false := by simpa using he
    simp [this, he, ← parseNote_isSome]

theorem parseNoteSeqSkipEmpty_isSome (r : List Char) :
    (parseNoteSeqSkipEmpty r).isSome = true ↔ SepBy IsNoteOrEmpty r := by
  have hcomma : ∀ t, (parseNoteOrEmpty t).isSome = true → ',' ∉ t := by
    intro t ht
    rcases (parseNoteOrEmpty_isSome t).mp ht with rfl | h
    · simp
    · exact isNote_no_comma t h
  have hsame : (parseNoteSeqSkipEmpty r).isSome = true ↔
      (allSome ((splitAt ',' r).map parseNoteOrEmpty)).isSome = true := by
    unfold parseNoteSeqSkipEmpty
    rw [allSome_map_isSome_iff, allSome_map_isSome_iff]
    constructor
    · intro h t ht
      by_cases he : t.isEmpty = true
      · simp [parseNoteOrEmpty, he]
      · have := h t (List.mem_filter.mpr ⟨ht, by simpa using he⟩)
        simpa [parseNoteOrEmpty, he] using this
    · intro h t ht
      obtain ⟨ht, he⟩ := List.mem_filter.mp ht
      have he2 : t.isEmpty = false := by simpa using he
      have := h t ht
      simpa [parseNoteOrEmpty, he2] using this
  rw [hsame, sepBy_iff parseNoteOrEmpty hcomma]
  exact ⟨sepBy_mono fun t => (parseNoteOrEmpty_isSome t).mp,
    sepBy_mono fun t => (parseNoteOrEmpty_isSome t).mpr⟩

/-- The reader of an entry accepts exactly the texts of the grammar's
`entry`, for any reading of a field whose texts hold no `,` and no `:`. -/
theorem parseEntryWith_isSome (f : List Char → Option Field) (P : List Char → Prop)
    (hfP : ∀ t, (f t).isSome = true ↔ P t) (hP : ∀ t, P t → ',' ∉ t ∧ ':' ∉ t)
    (g : List Char → Option (List Note)) (Q : List Char → Prop)
    (hgQ : ∀ r, (g r).isSome = true ↔ SepBy Q r) (s : List Char) :
    (parseEntryWith f g s).isSome = true ↔ IsEntryOf P Q s := by
  have hhead : ∀ h, (parseHeaderWith f h).isSome = true ↔ SepBy P h := by
    intro h
    unfold parseHeaderWith
    rw [sepBy_iff f (fun t ht => (hP t ((hfP t).mp ht)).1)]
    exact ⟨sepBy_mono fun t => (hfP t).mp, sepBy_mono fun t => (hfP t).mpr⟩
  constructor
  · intro h
    unfold parseEntryWith at h
    split at h
    · simp at h
    · next hd r hcut =>
      obtain ⟨rfl, _⟩ := (cutAtColon_iff s hd r).mp hcut
      split at h
      · next fs ns hfs hns =>
        refine ⟨hd, r, rfl, ?_, (hgQ r).mp (by simp [hns])⟩
        by_cases he : hd = []
        · exact Or.inl he
        · have : hd.isEmpty = false := by simpa using he
          rw [this] at hfs
          exact Or.inr ((hhead hd).mp (by simpa using congrArg Option.isSome hfs))
      · simp at h
  · rintro ⟨hd, r, rfl, hh, hr⟩
    have hcol : ':' ∉ hd := by
      rcases hh with rfl | hh
      · simp
      · exact sepBy_not_mem ':' (by decide) (fun t ht => (hP t ht).2) hh
    have hcut := (cutAtColon_iff (hd ++ ':' :: r) hd r).mpr ⟨rfl, hcol⟩
    obtain ⟨ns, hns⟩ := Option.isSome_iff_exists.mp ((hgQ r).mpr hr)
    have hfs : ∃ fs, (if hd.isEmpty = true then some [] else parseHeaderWith f hd) = some fs := by
      rcases hh with rfl | hh
      · exact ⟨[], rfl⟩
      · obtain ⟨fs, hfs⟩ := Option.isSome_iff_exists.mp ((hhead hd).mpr hh)
        by_cases he : hd.isEmpty = true
        · exact ⟨[], by simp [he]⟩
        · exact ⟨fs, by simp [he, hfs]⟩
    obtain ⟨fs, hfs⟩ := hfs
    unfold parseEntryWith
    simp only [hcut, hfs, hns, Option.isSome_some]

/-- The reader of the grammar as written accepts exactly its entries. -/
theorem accepts_iff (s : List Char) : accepts s = true ↔ IsEntry s := by
  unfold accepts parseEntry IsEntry
  exact parseEntryWith_isSome parseField IsField parseField_isSome
    (fun t ht => isFieldMulti_no_sep t (isField_isFieldMulti t ht))
    parseNoteSeq IsNote parseNoteSeq_isSome s

/-- A melody reader accepts exactly the texts laid out as `:` and, spaces
not counting, an entry with fields of one or more digits. -/
theorem readMelodyWith_isSome (g : List Char → Option (List Note)) (Q : List Char → Prop)
    (hgQ : ∀ r, (g r).isSome = true ↔ SepBy Q r) (s : List Char) :
    (readMelodyWith parseFieldMulti g s).isSome = true ↔ IsMelodyOf Q s := by
  unfold readMelodyWith IsMelodyOf
  constructor
  · intro h
    split at h
    · next rest heq =>
      unfold afterLeadColon at heq
      split at heq
      · next r =>
        simp at heq
        subst heq
        exact ⟨r, rfl, (parseEntryWith_isSome parseFieldMulti IsFieldMulti
          parseFieldMulti_isSome isFieldMulti_no_sep g Q hgQ _).mp h⟩
      · simp at heq
    · simp at h
  · rintro ⟨r, rfl, hr⟩
    simp only [afterLeadColon]
    exact (parseEntryWith_isSome parseFieldMulti IsFieldMulti
      parseFieldMulti_isSome isFieldMulti_no_sep g Q hgQ _).mpr hr

theorem parseMelody_isSome (s : List Char) :
    (parseMelody s).isSome = true ↔ IsMelodyOf IsNote s :=
  readMelodyWith_isSome parseNoteSeq IsNote parseNoteSeq_isSome s

theorem parseMelodySkipEmpty_isSome (s : List Char) :
    (parseMelodySkipEmpty s).isSome = true ↔ IsMelodyOf IsNoteOrEmpty s :=
  readMelodyWith_isSome parseNoteSeqSkipEmpty IsNoteOrEmpty parseNoteSeqSkipEmpty_isSome s

/-! ## The string tables -/

/-- The accented entries of the tables are, byte for byte, the UTF-8 text of
the header file. -/
theorem accented_entries_bytes :
    "février".toUTF8.data = #[0x66, 0xC3, 0xA9, 0x76, 0x72, 0x69, 0x65, 0x72] ∧
    "août".toUTF8.data = #[0x61, 0x6F, 0xC3, 0xBB, 0x74] ∧
    "décembre".toUTF8.data = #[0x64, 0xC3, 0xA9, 0x63, 0x65, 0x6D, 0x62, 0x72, 0x65] ∧
    "°C".toUTF8.data = #[0xC2, 0xB0, 0x43] ∧
    "°F".toUTF8.data = #[0xC2, 0xB0, 0x46] := by
  decide

/-- A table without a repeated entry has an injective lookup. -/
theorem injectiveLookup_of_nodup (t : List String) (h : t.Nodup) :
    InjectiveLookup t := by
  intro i j hi hj hij heq
  rw [List.getElem?_eq_getElem hi, List.getElem?_eq_getElem hj] at heq
  injection heq with heq
  exact hij ((List.Nodup.getElem_inj_iff h).mp heq)

/-- No string table repeats an entry. -/
theorem stringTables_nodup : ∀ t ∈ stringTables, t.Nodup := by
  decide

/-- C2: the weekday table `sDOW` has exactly 8 entries; entry 0 is the empty
string, entries 1 to 7 are the French names of Sunday to Saturday in order
(so `sDOW[3]` is "Mardi"), and every index above 7 is out of range. -/
theorem sDOW_table :
    sDOW.length = 8 ∧
    sDOW[0]? = some "" ∧
    sDOW[1]? = some "Dimanche" ∧
    sDOW[2]? = some "Lundi" ∧
    sDOW[3]? = some "Mardi" ∧
    sDOW[4]? = some "Mercredi" ∧
    sDOW[5]? = some "Jeudi" ∧
    sDOW[6]? = some "Vendredi" ∧
    sDOW[7]? = some "Samedi" ∧
    ∀ i : Nat, 7 < i → sDOW[i]? = none := by
  refine ⟨rfl, rfl, rfl, rfl, rfl, rfl, rfl, rfl, rfl, ?_⟩
  intro i hi
  exact List.getElem?_eq_none (by simpa [sDOW] using hi)

/-- Index 8, the first one above 7, is out of the range of `sDOW`. -/
theorem sDOW_table_witness : sDOW[8]? = none :=
  sDOW_table.2.2.2.2.2.2.2.2.2 8 (by decide)

/-- C3: the month table `sMONTH` has exactly 13 entries; entry 0 is the
empty string and, for every month number `m` from 1 to 12, `sMONTH[m]` is
the French name of month `m`: a 1-based month number indexes the table as it
is. -/
theorem sMONTH_table :
    sMONTH.length = 13 ∧
    sMONTH[0]? = some "" ∧
    ∀ m : Nat, 1 ≤ m → m ≤ 12 →
      ∃ name, monthNameFr m = some name ∧ sMONTH[m]? = some name := by
  refine ⟨rfl, rfl, ?_⟩
  intro m h1 h12
  interval_cases m <;> exact ⟨_, rfl, rfl⟩

/-- Month 8 is looked up at index 8 and is "août". -/
theorem sMONTH_table_witness :
    ∃ name, monthNameFr 8 = some name ∧ sMONTH[8]? = some name :=
  sMONTH_table.2.2 8 (by decide) (by decide)

/-- C6: the settings table `sSETTINGS` has exactly 17 entries; its last six
entries, indices 11 to 16, are "Alarm1", "Alarm2", "Music1", "Music2",
"Bright1", "Bright2" in this order; the entries that begin with "Alarm",
"Music" and "Bright" are exactly those at 11 and 12, at 13 and 14, and at 15
and 16; the format patterns "d:m:y" and "m:d:y" are at indices 8 and 9. -/
theorem sSETTINGS_table :
    sSETTINGS.length = 17 ∧
    sSETTINGS.drop 11 = ["Alarm1", "Alarm2", "Music1", "Music2", "Bright1", "Bright2"] ∧
    sSETTINGS[11]? = some "Alarm1" ∧
    sSETTINGS[12]? = some "Alarm2" ∧
    sSETTINGS[13]? = some "Music1" ∧
    sSETTINGS[14]? = some "Music2" ∧
    sSETTINGS[15]? = some "Bright1" ∧
    sSETTINGS[16]? = some "Bright2" ∧
    indicesBeginning "Alarm" sSETTINGS = [11, 12] ∧
    indicesBeginning "Music" sSETTINGS = [13, 14] ∧
    indicesBeginning "Bright" sSETTINGS = [15, 16] ∧
    sSETTINGS[8]? = some "d:m:y" ∧
    sSETTINGS[9]? = some "m:d:y" := by
  decide

/-- C7: the table `sMESSAGES` has exactly 4 entries: the temperature units
"°C" and "°F" at indices 0 and 1, and the texts "Temp: " and "Date: " at
indices 2 and 3, each ending in a colon followed by one space. -/
theorem sMESSAGES_table :
    sMESSAGES.length = 4 ∧
    sMESSAGES[0]? = some "°C" ∧
    sMESSAGES[1]? = some "°F" ∧
    sMESSAGES[2]? = some "Temp: " ∧
    sMESSAGES[3]? = some "Date: " ∧
    endsWith ": " "Temp: " = true ∧
    endsWith ": " "Date: " = true ∧
    "Temp: ".toList.reverse.take 3 = [' ', ':', 'p'] ∧
    "Date: ".toList.reverse.take 3 = [' ', ':', 'e'] := by
  decide

/-- C10: lookup is injective in every string table: in each of `sDOW`,
`sMONTH`, `sMESSAGES`, `sSETTINGS` and `sSPLASH`, two different in-range
indices hold different texts; the empty string is at index 0 only, in `sDOW`
and in `sMONTH`. -/
theorem lookup_injective (t : List String) (ht : t ∈ stringTables)
    (i j : Nat) (hi : i < t.length) (hj : j < t.length) (hij : i ≠ j) :
    t[i]? ≠ t[j]? ∧ indicesOf "" sDOW = [0] ∧ indicesOf "" sMONTH = [0] :=
  ⟨injectiveLookup_of_nodup t (stringTables_nodup t ht) i j hi hj hij,
    by decide, by decide⟩

/-- In `sMONTH`, indices 2 and 12 hold different texts. -/
theorem lookup_injective_witness :
    sMONTH[2]? ≠ sMONTH[12]? ∧ indicesOf "" sDOW = [0] ∧ indicesOf "" sMONTH = [0] :=
  lookup_injective sMONTH (by decide) 2 12 (by decide) (by decide) (by decide)

/-! ## The melody table -/

/-- The duration values and the octave values written in each melody. -/
theorem melodies_values :
    melodies.map (fun s => durationValues s.toList) =
      [[8, 8, 8, 8, 8, 1, 8, 1, 8, 1], [4], [2, 16, 16, 8, 4], [2, 32, 32, 32, 32],
       [16, 8, 8, 8, 1, 1, 1, 1, 1, 1, 1], [16, 8, 8, 8, 1, 1, 1, 1], [8, 1], [8, 1]] ∧
    melodies.map (fun s => octaveValues s.toList) =
      [[], [], [6], [5], [1], [], [6], [6]] := by
  decide

/-- No melody of the table is accepted by the reader of the grammar as
written, with its spaces in place or with its spaces taken out. -/
theorem melodies_not_accepted :
    ∀ s ∈ melodies, accepts s.toList = false ∧ accepts (dropSpaces s.toList) = false := by
  decide

/-- C1, as stated, fails: the grammar as written derives no melody of the
table, with the spaces in place or with the spaces taken out; its reader
accepts none of the eight. -/
theorem grammar_accepts_no_melody :
    melodies.length = 8 ∧
    melodies.map (fun s => accepts s.toList) = List.replicate 8 false ∧
    melodies.map (fun s => accepts (dropSpaces s.toList)) = List.replicate 8 false ∧
    (¬ ∃ s ∈ melodies, IsEntry s.toList) ∧
    (¬ ∃ s ∈ melodies, IsEntry (dropSpaces s.toList)) := by
  refine ⟨by decide, by decide, by decide, ?_, ?_⟩
  · rintro ⟨s, hs, h⟩
    have hacc := (accepts_iff _).mpr h
    rw [(melodies_not_accepted s hs).1] at hacc
    exact absurd hacc (by decide)
  · rintro ⟨s, hs, h⟩
    have hacc := (accepts_iff _).mpr h
    rw [(melodies_not_accepted s hs).2] at hacc
    exact absurd hacc (by decide)

/-- C1, amended: every melody other than `song01` is, after its leading
`:`, with spaces not counting and empty note pieces passed over, an entry
of the grammar read with field values of one or more digits, nothing left
over; and for every melody other than `song01` and `song12` no empty note
piece has to be passed over.  Both are stated for the reader and for the
grammar as a set of texts. -/
theorem melodies_accepted_after_lead_colon (s : String) (hs : s ∈ melodies)
    (h01 : s ≠ song01) :
    ((parseMelodySkipEmpty s.toList).isSome = true ∧ IsMelodyOf IsNoteOrEmpty s.toList) ∧
    (s ≠ song12 → (parseMelody s.toList).isSome = true ∧ IsMelodyOf IsNote s.toList) := by
  have key : ∀ s ∈ melodies, s ≠ song01 →
      (parseMelodySkipEmpty s.toList).isSome = true ∧
      (s ≠ song12 → (parseMelody s.toList).isSome = true) := by
    decide
  obtain ⟨h1, h2⟩ := key s hs h01
  exact ⟨⟨h1, (parseMelodySkipEmpty_isSome _).mp h1⟩,
    fun h12 => ⟨h2 h12, (parseMelody_isSome _).mp (h2 h12)⟩⟩

/-- The melody `song11`, which is neither `song01` nor `song12`, is accepted
without passing over any piece. -/
theorem melodies_accepted_after_lead_colon_witness :
    song11 ∈ melodies ∧ song11 ≠ song01 ∧ song11 ≠ song12 ∧
    (parseMelody song11.toList).isSome = true ∧ IsMelodyOf IsNote song11.toList :=
  ⟨by decide, by decide, by decide,
    (melodies_accepted_after_lead_colon song11 (by decide) (by decide)).2 (by decide)⟩

/-- C4, as stated, fails: the eighth note token of `song12` is fourteen
spaces and has no pitch character. -/
theorem song12_token_without_pitch :
    song12 ∈ melodies ∧
    (noteTokens song12.toList)[7]? = some (List.replicate 14 ' ') ∧
    pitchChar (List.replicate 14 ' ') = none := by
  decide

/-- C4, amended: in every melody, every note token that is not blank has a
pitch character, one of a, b, c, d, e, f, g, p; and blank tokens occur in
`song12` only. -/
theorem nonblank_token_pitch (s : String) (hs : s ∈ melodies)
    (tok : List Char) (ht : tok ∈ noteTokens s.toList) :
    (isBlank tok = false → ∃ c ∈ pitchChars, pitchChar tok = some c) ∧
    (s ≠ song12 → isBlank tok = false) := by
  have key : ∀ s ∈ melodies, ∀ tok ∈ noteTokens s.toList,
      (isBlank tok = false → ∃ c ∈ pitchChars, pitchChar tok = some c) ∧
      (s ≠ song12 → isBlank tok = false) := by
    decide
  exact key s hs tok ht

/-- The token `8g8a` of `song01` is not blank and its pitch character is
`g`. -/
theorem nonblank_token_pitch_witness :
    song01 ∈ melodies ∧ "8g8a".toList ∈ noteTokens song01.toList ∧
    (isBlank "8g8a".toList = false → ∃ c ∈ pitchChars, pitchChar "8g8a".toList = some c) ∧
    (song01 ≠ song12 → isBlank "8g8a".toList = false) :=
  ⟨by decide, by decide,
    nonblank_token_pitch song01 (by decide) "8g8a".toList (by decide)⟩

/-- C5, as stated, fails: under the grammar as written `song02` is not an
entry, with its space in place or taken out, so reading it yields nothing. -/
theorem song02_not_an_entry :
    parseEntry song02.toList = none ∧
    parseEntry (dropSpaces song02.toList) = none ∧
    ¬ IsEntry song02.toList ∧
    ¬ IsEntry (dropSpaces song02.toList) := by
  refine ⟨by decide, by decide, ?_, ?_⟩
  · intro h
    exact absurd ((accepts_iff _).mpr h) (by decide)
  · intro h
    exact absurd ((accepts_iff _).mpr h) (by decide)

/-- C5, amended: `song02` is exactly the text `:d=4 :c,d,e,f`; after its
leading `:`, spaces not counting, it reads under the grammar as the header
with the single field duration 4 (no octave field) and the notes c, d, e, f,
none of which carries a duration, a sharp, an octave or a dot. -/
theorem song02_parse :
    song02 = ":d=4 :c,d,e,f" ∧
    parseMelodyDigit song02.toList =
      some (Entry.mk [Field.duration 4]
        [Note.mk none 'c' false none none false,
         Note.mk none 'd' false none none false,
         Note.mk none 'e' false none none false,
         Note.mk none 'f' false none none false]) := by
  decide

/-- C8: in every melody, every duration value, that is every maximal run of
decimal digits not directly after `o=` or `_`, is one of 1, 2, 4, 8, 16,
32, a power of two. -/
theorem durations_inverse_powers_of_two (s : String) (hs : s ∈ melodies)
    (n : Nat) (hn : n ∈ durationValues s.toList) :
    n ∈ [1, 2, 4, 8, 16, 32] ∧ ∃ k : Nat, k ≤ 5 ∧ n = 2 ^ k := by
  have key : ∀ s ∈ melodies, ∀ n ∈ durationValues s.toList,
      n ∈ [1, 2, 4, 8, 16, 32] := by
    decide
  have hmem := key s hs n hn
  refine ⟨hmem, ?_⟩
  simp only [List.mem_cons, List.mem_singleton, List.not_mem_nil, or_false] at hmem
  rcases hmem with rfl | rfl | rfl | rfl | rfl | rfl
  · exact ⟨0, by decide, rfl⟩
  · exact ⟨1, by decide, rfl⟩
  · exact ⟨2, by decide, rfl⟩
  · exact ⟨3, by decide, rfl⟩
  · exact ⟨4, by decide, rfl⟩
  · exact ⟨5, by decide, rfl⟩

/-- The duration value 16 of `song03` is a power of two. -/
theorem durations_inverse_powers_of_two_witness :
    song03 ∈ melodies ∧ 16 ∈ durationValues song03.toList ∧
    16 ∈ [1, 2, 4, 8, 16, 32] ∧ ∃ k : Nat, k ≤ 5 ∧ 16 = 2 ^ k :=
  ⟨by decide, by decide,
    durations_inverse_powers_of_two song03 (by decide) 16 (by decide)⟩

/-- C9: every melody begins with `:`, holds exactly two `:`, has a space
right before the second `:`, and the text between the two colons, spaces
taken out, is empty or a comma-separated list of fields `o=` or `d=`
followed by one or more digits, at most one of each kind, `o=` first. -/
theorem two_colon_layout (s : String) (hs : s ∈ melodies) :
    s.toList.head? = some ':' ∧
    s.toList.count ':' = 2 ∧
    ∃ mid notes : List Char,
      splitAt ':' s.toList = [[], mid, notes] ∧
      s.toList = ':' :: (mid ++ ':' :: notes) ∧
      mid.getLast? = some ' ' ∧
      (dropSpaces mid = [] ∨ headerFieldsOK (dropSpaces mid) = true) := by
  simp only [melodies, List.mem_cons, List.mem_singleton, List.not_mem_nil, or_false] at hs
  rcases hs with rfl | rfl | rfl | rfl | rfl | rfl | rfl | rfl <;>
    exact ⟨by decide, by decide, _, _, rfl, by decide, by decide, by decide⟩

/-- The melody `song03` has the two-colon layout, with the header text
`o=6,d=2 ` between its colons. -/
theorem two_colon_layout_witness :
    song03 ∈ melodies ∧
    song03.toList.head? = some ':' ∧
    song03.toList.count ':' = 2 ∧
    ∃ mid notes : List Char,
      splitAt ':' song03.toList = [[], mid, notes] ∧
      song03.toList = ':' :: (mid ++ ':' :: notes) ∧
      mid.getLast? = some ' ' ∧
      (dropSpaces mid = [] ∨ headerFieldsOK (dropSpaces mid) = true) :=
  ⟨by decide, two_colon_layout song03 (by decide)⟩

end ArduinoClock
